import Mathlib

/-!
Shallow embedding of the `wts-core` crate (`src/wts-core/src/lib.rs`), a
content-addressed version-control core for tensor collections, together with
theorems settling the specification claims about it.

Modelling conventions:
* Tensor names, dtype identifiers, display text and raw element buffers enter
  the SHA-512 hasher as byte sequences; they are modelled as `List Nat`
  (each entry a byte value).  Rust sorts `String` keys by byte-wise
  lexicographic comparison of their UTF-8 bytes, which is exactly the
  lexicographic order `bytesLe` on the byte lists.
* The SHA-512 compression itself lives in the external `sha2` crate; it is a
  parameter `sha : List Nat → List Nat` of the definitions that use it.
  Likewise `Tensor::to_string()` (candle's display text, the spec's "textual
  shape descriptor") is a parameter `display : TensorVal → List Nat`, and the
  serde/safetensors codecs are parameters `encode` / `decode` /
  `serializeTensors`.
* The filesystem is an explicit state `FS` (directory paths and file
  contents); paths are segment lists `List String`.  Fallible writes are
  modelled by explicit outcome flags where a claim is about failure handling.
-/

/-- Byte-wise lexicographic comparison on byte sequences, the order Rust's
`Vec::sort` uses on `String` keys (UTF-8 bytes compared left to right). -/
def bytesLe : List Nat → List Nat → Bool
  | [], _ => true
  | _ :: _, [] => false
  | a :: as, b :: bs => if a < b then true else if b < a then false else bytesLe as bs

/-- `bytesLe` as a relation, for use with `List.insertionSort`. -/
def bytesLeRel (a b : List Nat) : Prop := bytesLe a b = true

instance : DecidableRel bytesLeRel := fun a b =>
  inferInstanceAs (Decidable (bytesLe a b = true))

theorem bytesLe_total : ∀ as bs : List Nat, bytesLe as bs = true ∨ bytesLe bs as = true := by
  intro as
  induction as with
  | nil => intro bs; left; rfl
  | cons a as ih =>
    intro bs
    cases bs with
    | nil => right; rfl
    | cons b bs =>
      rcases Nat.lt_trichotomy a b with h | h | h
      · left; simp [bytesLe, h]
      · subst h
        rcases ih bs with h' | h'
        · left; simp [bytesLe, h']
        · right; simp [bytesLe, h']
      · right; simp [bytesLe, h]

theorem bytesLe_trans : ∀ as bs cs : List Nat,
    bytesLe as bs = true → bytesLe bs cs = true → bytesLe as cs = true := by
  intro as
  induction as with
  | nil => intro bs cs _ _; rfl
  | cons a as ih =>
    intro bs cs hab hbc
    cases bs with
    | nil => simp [bytesLe] at hab
    | cons b bs =>
      cases cs with
      | nil => simp [bytesLe] at hbc
      | cons c cs =>
        simp only [bytesLe] at hab hbc ⊢
        by_cases h2 : b < c
        · by_cases h1 : a < b
          · simp [Nat.lt_trans h1 h2]
          · by_cases h1' : b < a
            · simp only [if_neg h1, if_pos h1'] at hab
              simp at hab
            · have hab' : a = b := by omega
              subst hab'
              simp [h2]
        · by_cases h3 : c < b
          · simp only [if_neg h2, if_pos h3] at hbc
            simp at hbc
          · have hbc' : b = c := by omega
            subst hbc'
            simp only [if_neg (lt_irrefl b)] at hbc
            by_cases h1 : a < b
            · simp [h1]
            · by_cases h1' : b < a
              · simp only [if_neg h1, if_pos h1'] at hab
                simp at hab
              · have hab' : a = b := by omega
                subst hab'
                simp only [if_neg (lt_irrefl a)] at hab ⊢
                exact ih bs cs hab hbc

theorem bytesLe_antisymm : ∀ as bs : List Nat,
    bytesLe as bs = true → bytesLe bs as = true → as = bs := by
  intro as
  induction as with
  | nil =>
    intro bs _ hba
    cases bs with
    | nil => rfl
    | cons b bs => simp [bytesLe] at hba
  | cons a as ih =>
    intro bs hab hba
    cases bs with
    | nil => simp [bytesLe] at hab
    | cons b bs =>
      simp only [bytesLe] at hab hba
      by_cases h1 : a < b
      · simp only [if_neg (Nat.lt_asymm h1), if_pos h1] at hba
        simp at hba
      · by_cases h2 : b < a
        · simp only [if_neg h1, if_pos h2] at hab
          simp at hab
        · have hab' : a = b := by omega
          subst hab'
          simp only [if_neg (lt_irrefl a)] at hab hba
          exact congrArg (a :: ·) (ih bs hab hba)

instance : IsTotal (List Nat) bytesLeRel := ⟨bytesLe_total⟩

instance : IsTrans (List Nat) bytesLeRel := ⟨bytesLe_trans⟩

/-- The strict part of `bytesLeRel`, used to show two sorted permutations of a
duplicate-free key list coincide. -/
def bytesLtRel (a b : List Nat) : Prop := bytesLeRel a b ∧ a ≠ b

instance : IsAntisymm (List Nat) bytesLtRel :=
  ⟨fun _ _ h h' => bytesLe_antisymm _ _ h.1 h'.1⟩

/-- A tensor value as the hasher consumes it: the dtype identifier bytes
(`DType::as_str`) and the raw element bytes (`Tensor::write_bytes`).  The
display text (`Tensor::to_string()`) is a function parameter. -/
structure TensorVal where
  dtype : List Nat
  bytes : List Nat
deriving DecidableEq, Repr

/-- A tensor collection: the `HashMap<String, Tensor>` as an association list
from name bytes to tensor value (names unique in any well-formed map). -/
abbrev TensorMap := List (List Nat × TensorVal)

/-- The byte stream `Repository::hash_tensors` feeds to the SHA-512 hasher
(`src/wts-core/src/lib.rs` lines 162-189): collect the map's keys, sort them,
and for each key in sorted order feed the name bytes, the display text
(`tensor.to_string()`), the dtype identifier and the raw tensor bytes.  The
hasher state is the accumulated input; `tensors.get(key).unwrap()` is the
association-list lookup (which always succeeds for keys of the map). -/
def hashInput (display : TensorVal → List Nat) (tensors : TensorMap) : List Nat :=
  let keys := tensors.map Prod.fst
  let sortedKeys := List.insertionSort bytesLeRel keys
  sortedKeys.foldl (fun acc key =>
    match tensors.lookup key with
    | some t => acc ++ key ++ display t ++ t.dtype ++ t.bytes
    | none => acc) []

/-- `Repository::hash_tensors`: SHA-512 over the canonical byte stream.  The
compression function of the external `sha2` crate is the parameter `sha`
(a 64-byte digest means `(sha l).length = 64` for every input). -/
def Repository.hash_tensors (sha : List Nat → List Nat) (display : TensorVal → List Nat)
    (tensors : TensorMap) : List Nat :=
  sha (hashInput display tensors)

/-- Modelled from the spec: "for each name the hash input is, in order, the
name bytes, a textual shape descriptor, the dtype identifier, and the raw
element bytes". -/
def specEntryBytes (display : TensorVal → List Nat) (name : List Nat) (t : TensorVal) :
    List Nat :=
  name ++ display t ++ t.dtype ++ t.bytes

/-- The tensor names in the order the hasher visits them: sorted
lexicographically. -/
def canonicalNames (tensors : TensorMap) : List (List Nat) :=
  List.insertionSort bytesLeRel (tensors.map Prod.fst)

/-- Modelled from the spec: the canonical hash input is the concatenation of
the per-name entries in lexicographically sorted name order. -/
def specCanonicalInput (display : TensorVal → List Nat) (tensors : TensorMap) : List Nat :=
  ((canonicalNames tensors).map (fun name =>
    match tensors.lookup name with
    | some t => specEntryBytes display name t
    | none => [])).flatten

/-- One hexadecimal digit (lowercase), as `hex::encode` produces. -/
def hexDigit (n : Nat) : Char :=
  if n < 10 then Char.ofNat (48 + n) else Char.ofNat (87 + n)

/-- `hex::encode`: two lowercase hex digits per byte. -/
def hexEncode (bytes : List Nat) : String :=
  String.mk (bytes.flatMap (fun b => [hexDigit (b / 16 % 16), hexDigit (b % 16)]))

/-- Error type `WTSError` of `wts-core`; `Io` carries the message of the
underlying `std::io::Error`. -/
inductive WTSError where
  | Io (msg : String)
  | EmptyRepository
  | ObjectNotFound (key : String)
  | InvalidReference (key : String)
  | SafeTensorError (msg : String)
  | Other (msg : String)
deriving DecidableEq, Repr

/-- Opaque structured metadata (`serde_json::Value`), opaque to the core. -/
inductive Json where
  | null
  | bool (b : Bool)
  | num (n : Int)
  | str (s : String)
  | arr (elems : List Json)
  | obj (fields : List (String × Json))

/-- A commit record.  `timestamp` is the serialized `UnixTimestamp` text
(chrono's `%s.%6f` rendering of `Utc::now()`), supplied by the clock. -/
structure Commit where
  hash : List Nat
  parent_hash : Option (List Nat)
  timestamp : String
  message : String
  metadata : Json

/-- A filesystem path, as a list of segments. -/
abbrev FPath := List String

/-- Explicit filesystem state: the set of existing directories and the files
with their contents (a commit-record file holds the serde output text; an
object blob holds the safetensors container bytes, modelled as its opaque
serialized text). -/
structure FS where
  dirs : List FPath
  files : List (FPath × String)

/-- `Path::exists`: the path is a directory or a file. -/
def FS.existsPath (fs : FS) (p : FPath) : Bool :=
  fs.dirs.contains p || fs.files.any (fun f => f.1 == p)

/-- `fs::create_dir_all`: create the directory and all missing parents; files
are untouched. -/
def FS.mkdirAll (fs : FS) (p : FPath) : FS :=
  { fs with dirs := p :: ((List.range p.length).map (fun i => p.take (i + 1))) ++ fs.dirs }

/-- `fs::write` (successful case): create or overwrite the file contents. -/
def FS.writeFile (fs : FS) (p : FPath) (content : String) : FS :=
  { fs with files := (p, content) :: fs.files.filter (fun f => !(f.1 == p)) }

/-- `fs::read_to_string` (the file's contents if it exists). -/
def FS.readFile (fs : FS) (p : FPath) : Option String :=
  (fs.files.find? (fun f => f.1 == p)).map Prod.snd

/-- The `Repository` struct: a root path. -/
structure Repository where
  root : FPath
deriving DecidableEq, Repr

/-- `Repository::new`: if the path does not exist, create `<path>/.wts` (and
its parents) via `create_dir_all`; an existing path is left untouched.
Returns the repository rooted at the path. -/
def Repository.new (fs : FS) (path : FPath) : FS × Repository :=
  if fs.existsPath path then (fs, { root := path })
  else (fs.mkdirAll (path ++ [".wts"]), { root := path })

/-- `Repository::open` (named `openRepo` because `open` is a Lean keyword):
takes the current working directory as root and fails with `EmptyRepository`
only when that path itself does not exist. -/
def Repository.openRepo (fs : FS) (cwd : FPath) : Except WTSError Repository :=
  if !(fs.existsPath cwd) then Except.error WTSError.EmptyRepository
  else Except.ok { root := cwd }

/-- `Repository::init`: create the `.wts` control tree and unconditionally
write the `HEAD` file with the literal text `ref: ref/heads/main`. -/
def Repository.init (repo : Repository) (fs : FS) : FS :=
  let wts_dir := repo.root ++ [".wts"]
  let fs1 := fs.mkdirAll (wts_dir ++ ["objects"])
  let fs2 := fs1.mkdirAll (wts_dir ++ ["refs", "heads"])
  let fs3 := fs2.mkdirAll (wts_dir ++ ["refs", "tags"])
  let fs4 := fs3.mkdirAll (wts_dir ++ ["commits"])
  fs4.writeFile (wts_dir ++ ["HEAD"]) "ref: ref/heads/main"

/-- `Repository::is_initialized`. -/
def Repository.is_initialized (repo : Repository) (fs : FS) : Bool :=
  fs.existsPath (repo.root ++ [".wts"])

theorem lookup_eq_some_of_mem : ∀ {ts : TensorMap} {k : List Nat} {v : TensorVal},
    (ts.map Prod.fst).Nodup → (k, v) ∈ ts → ts.lookup k = some v := by
  intro ts
  induction ts with
  | nil => intro k v _ hm; simp at hm
  | cons e ts ih =>
    intro k v hnd hm
    obtain ⟨a, w⟩ := e
    simp only [List.map_cons, List.nodup_cons] at hnd
    by_cases h : k = a
    · subst h
      rcases List.mem_cons.mp hm with h' | h'
      · simp only [Prod.mk.injEq] at h'
        simp [List.lookup_cons, h'.2]
      · exact absurd (List.mem_map.mpr ⟨(k, v), h', rfl⟩) hnd.1
    · have hm' : (k, v) ∈ ts := by
        rcases List.mem_cons.mp hm with h' | h'
        · simp only [Prod.mk.injEq] at h'
          exact absurd h'.1 h
        · exact h'
      have : (k == a) = false := beq_false_of_ne h
      simp [List.lookup_cons, this, ih hnd.2 hm']

theorem mem_of_lookup_eq_some : ∀ {ts : TensorMap} {k : List Nat} {v : TensorVal},
    ts.lookup k = some v → (k, v) ∈ ts := by
  intro ts
  induction ts with
  | nil => intro k v h; simp [List.lookup] at h
  | cons e ts ih =>
    intro k v h
    obtain ⟨a, w⟩ := e
    by_cases hk : k = a
    · subst hk
      simp [List.lookup_cons] at h
      simp [h]
    · have : (k == a) = false := beq_false_of_ne hk
      simp only [List.lookup_cons, this] at h
      exact List.mem_cons.mpr (Or.inr (ih h))

theorem lookup_eq_none_iff : ∀ {ts : TensorMap} {k : List Nat},
    ts.lookup k = none ↔ k ∉ ts.map Prod.fst := by
  intro ts
  induction ts with
  | nil => intro k; simp [List.lookup]
  | cons e ts ih =>
    intro k
    obtain ⟨a, w⟩ := e
    by_cases hk : k = a
    · subst hk
      simp [List.lookup_cons]
    · have : (k == a) = false := beq_false_of_ne hk
      simp [List.lookup_cons, this, ih, hk]

/-- Looking a key up in a duplicate-free association list is invariant under
permutation of the entries. -/
theorem lookup_perm {ts1 ts2 : TensorMap} (hp : ts1.Perm ts2)
    (hnd : (ts1.map Prod.fst).Nodup) (k : List Nat) :
    ts1.lookup k = ts2.lookup k := by
  have hnd2 : (ts2.map Prod.fst).Nodup := (hp.map Prod.fst).nodup hnd
  cases h : ts1.lookup k with
  | none =>
    have hk : k ∉ ts1.map Prod.fst := lookup_eq_none_iff.mp h
    have hk2 : k ∉ ts2.map Prod.fst := fun hm => hk ((hp.map Prod.fst).mem_iff.mpr hm)
    exact (lookup_eq_none_iff.mpr hk2).symm
  | some v =>
    exact (lookup_eq_some_of_mem hnd2 (hp.subset (mem_of_lookup_eq_some h))).symm

theorem foldl_append_eq {α β : Type} (g : α → List β) :
    ∀ (l : List α) (acc : List β),
      l.foldl (fun a k => a ++ g k) acc = acc ++ (l.map g).flatten := by
  intro l
  induction l with
  | nil => intro acc; simp
  | cons x l ih => intro acc; simp [ih, List.append_assoc]

/-- The imperative hashing loop produces exactly the spec's canonical
concatenation. -/
theorem hashInput_eq_specCanonicalInput (display : TensorVal → List Nat) (ts : TensorMap) :
    hashInput display ts = specCanonicalInput display ts := by
  have hfun : (fun (acc key : List Nat) =>
      match ts.lookup key with
      | some t => acc ++ key ++ display t ++ t.dtype ++ t.bytes
      | none => acc) =
      (fun (acc key : List Nat) => acc ++
        match ts.lookup key with
        | some t => specEntryBytes display key t
        | none => []) := by
    funext acc key
    cases ts.lookup key with
    | none => simp
    | some t => simp [specEntryBytes, List.append_assoc]
  simp only [hashInput, specCanonicalInput, canonicalNames, hfun]
  rw [foldl_append_eq]
  simp

/-- C2: for every Tensor Collection, `hash_tensors` sorts the tensor names
lexicographically, and the byte stream it feeds to the hasher is, name by name
in that order, the name bytes, the textual shape descriptor
(`tensor.to_string()`), the dtype identifier and the raw element bytes, each
entry exactly once. -/
theorem hash_tensors_canonical_encoding (sha : List Nat → List Nat)
    (display : TensorVal → List Nat) (ts : TensorMap) :
    Repository.hash_tensors sha display ts = sha (specCanonicalInput display ts) ∧
    List.Sorted bytesLeRel (canonicalNames ts) ∧
    (canonicalNames ts).Perm (ts.map Prod.fst) := by
  refine ⟨?_, ?_, ?_⟩
  · simp only [Repository.hash_tensors, hashInput_eq_specCanonicalInput]
  · exact List.sorted_insertionSort bytesLeRel (ts.map Prod.fst)
  · exact List.perm_insertionSort bytesLeRel (ts.map Prod.fst)

/-- Two duplicate-free key lists that are permutations of one another have the
same insertion sort. -/
theorem insertionSort_eq_of_perm_of_nodup {l1 l2 : List (List Nat)}
    (hp : l1.Perm l2) (hnd : l1.Nodup) :
    List.insertionSort bytesLeRel l1 = List.insertionSort bytesLeRel l2 := by
  apply List.eq_of_perm_of_sorted (r := bytesLtRel)
  · exact ((List.perm_insertionSort bytesLeRel l1).trans hp).trans
      (List.perm_insertionSort bytesLeRel l2).symm
  · have hs := List.sorted_insertionSort bytesLeRel l1
    have hn : (List.insertionSort bytesLeRel l1).Nodup :=
      (List.perm_insertionSort bytesLeRel l1).symm.nodup hnd
    exact (List.Pairwise.and hs hn).imp (fun h => h)
  · have hs := List.sorted_insertionSort bytesLeRel l2
    have hn : (List.insertionSort bytesLeRel l2).Nodup :=
      (List.perm_insertionSort bytesLeRel l2).symm.nodup (hp.nodup hnd)
    exact (List.Pairwise.and hs hn).imp (fun h => h)

/-- C1: two tensor collections with identical (name, shape, dtype, bytes)
entries — the same entries, in any insertion order, names unique as in a
`HashMap` — hash to the same digest, and that digest is 64 bytes long. -/
theorem hash_tensors_order_independent (sha : List Nat → List Nat)
    (display : TensorVal → List Nat) (ts1 ts2 : TensorMap)
    (hsha : ∀ l, (sha l).length = 64)
    (hperm : ts1.Perm ts2) (hnd : (ts1.map Prod.fst).Nodup) :
    Repository.hash_tensors sha display ts1 = Repository.hash_tensors sha display ts2 ∧
    (Repository.hash_tensors sha display ts1).length = 64 := by
  refine ⟨?_, hsha _⟩
  have hkeys : (ts1.map Prod.fst).Perm (ts2.map Prod.fst) := hperm.map Prod.fst
  have hsort : List.insertionSort bytesLeRel (ts1.map Prod.fst) =
      List.insertionSort bytesLeRel (ts2.map Prod.fst) :=
    insertionSort_eq_of_perm_of_nodup hkeys hnd
  have hlook : ∀ k, ts1.lookup k = ts2.lookup k := lookup_perm hperm hnd
  have hfun : (fun (acc key : List Nat) =>
      match ts1.lookup key with
      | some t => acc ++ key ++ display t ++ t.dtype ++ t.bytes
      | none => acc) =
      (fun (acc key : List Nat) =>
      match ts2.lookup key with
      | some t => acc ++ key ++ display t ++ t.dtype ++ t.bytes
      | none => acc) := by
    funext acc key
    rw [hlook key]
  simp only [Repository.hash_tensors, hashInput, hsort, hfun]

/-- Concrete run of `hash_tensors_order_independent`: the two-entry collection
with names `[0]` and `[1]` hashes identically in both insertion orders. -/
theorem hash_tensors_order_independent_witness :
    Repository.hash_tensors (fun l => List.replicate 64 (l.length % 256))
        (fun t => t.dtype)
        [([1], TensorVal.mk [10] [11]), ([0], TensorVal.mk [20] [21])] =
      Repository.hash_tensors (fun l => List.replicate 64 (l.length % 256))
        (fun t => t.dtype)
        [([0], TensorVal.mk [20] [21]), ([1], TensorVal.mk [10] [11])] ∧
    (Repository.hash_tensors (fun l => List.replicate 64 (l.length % 256))
        (fun t => t.dtype)
        [([1], TensorVal.mk [10] [11]), ([0], TensorVal.mk [20] [21])]).length = 64 :=
  hash_tensors_order_independent _ _ _ _
    (fun _ => by simp)
    (List.Perm.swap ([0], TensorVal.mk [20] [21]) ([1], TensorVal.mk [10] [11]) [])
    (by decide)

/-- `Repository::store_tensors`: `let _ = save(tensors, object_path)...; Ok(())`
— the outcome of the external safetensors `save` is discarded and the function
returns `Ok(())` unconditionally.  `saveOk` is the outcome of that external
write (whether the blob actually lands on disk); `serializeTensors` is the
external container encoding. -/
def Repository.store_tensors (serializeTensors : TensorMap → String) (saveOk : Bool)
    (repo : Repository) (fs : FS) (tensors : TensorMap) (hash : String) :
    FS × Except WTSError Unit :=
  let object_path := repo.root ++ [".wts", "objects", hash]
  let fs' := if saveOk then fs.writeFile object_path (serializeTensors tensors) else fs
  (fs', Except.ok ())

/-- `Repository::create_commit`: hash the tensors, hex-encode the digest,
build the commit record with the caller's parent and the current time, write
`commits/<hex>.json` (serde output via `encode`; `commitWriteOk` is the
outcome of that `fs::write`, propagated by `?`), then call `store_tensors`
(whose result the `?` also inspects) and return the hex digest. -/
def Repository.create_commit (sha : List Nat → List Nat) (display : TensorVal → List Nat)
    (encode : Commit → String) (serializeTensors : TensorMap → String)
    (repo : Repository) (fs : FS) (tensors : TensorMap) (message : String)
    (metadata : Json) (parent : Option (List Nat)) (now : String)
    (commitWriteOk : Bool) (saveOk : Bool) : FS × Except WTSError String :=
  let hash := Repository.hash_tensors sha display tensors
  let hex_hash := hexEncode hash
  let commit : Commit :=
    { hash := hash, parent_hash := parent, timestamp := now,
      message := message, metadata := metadata }
  let commit_path := repo.root ++ [".wts", "commits", hex_hash ++ ".json"]
  if commitWriteOk then
    let fs1 := fs.writeFile commit_path (encode commit)
    let stored := Repository.store_tensors serializeTensors saveOk repo fs1 tensors hex_hash
    match stored.2 with
    | Except.ok _ => (stored.1, Except.ok hex_hash)
    | Except.error e => (stored.1, Except.error e)
  else
    (fs, Except.error (WTSError.Io "failed to write commit file"))

/-- `Repository::get_commit`: read `commits/<hash>.json`; a missing file makes
`fs::read_to_string` fail and `?` converts the `io::Error` into `WTSError::Io`;
a present file is deserialized by serde (`decode`), deserialization failures
being mapped onto `WTSError::SafeTensorError`. -/
def Repository.get_commit (decode : String → Except String Commit) (fs : FS)
    (repo : Repository) (hash : String) : Except WTSError Commit :=
  let commit_path := repo.root ++ [".wts", "commits", hash ++ ".json"]
  match fs.readFile commit_path with
  | none => Except.error (WTSError.Io "No such file or directory")
  | some commit_json =>
    match decode commit_json with
    | Except.ok c => Except.ok c
    | Except.error e => Except.error (WTSError.SafeTensorError e)

/-- The commit-history iterator state: the digest still to visit, if any. -/
structure CommitIterator where
  current_hash : Option (List Nat)

/-- `CommitIterator::next`: nothing to do once `current_hash` is `None`;
otherwise look the commit up by the hex of the current digest — on success
advance to its parent and yield the commit, on failure clear the state and
yield the failure. -/
def CommitIterator.next (decode : String → Except String Commit) (fs : FS)
    (repo : Repository) (it : CommitIterator) :
    Option (Except WTSError Commit) × CommitIterator :=
  match it.current_hash with
  | none => (none, it)
  | some hash =>
    let hex_hash := hexEncode hash
    match Repository.get_commit decode fs repo hex_hash with
    | Except.ok c => (some (Except.ok c), { current_hash := c.parent_hash })
    | Except.error e => (some (Except.error e), { current_hash := none })

/-- The results of `n` successive `next` calls on the iterator. -/
def CommitIterator.run (decode : String → Except String Commit) (fs : FS)
    (repo : Repository) : Nat → CommitIterator → List (Option (Except WTSError Commit))
  | 0, _ => []
  | n + 1, it =>
    let step := CommitIterator.next decode fs repo it
    step.1 :: CommitIterator.run decode fs repo n step.2

theorem FS.readFile_mkdirAll (fs : FS) (p q : FPath) :
    (fs.mkdirAll p).readFile q = fs.readFile q := rfl

theorem find_filter_ne (files : List (FPath × String)) (p q : FPath) (h : q ≠ p) :
    (files.filter (fun f => !(f.1 == p))).find? (fun f => f.1 == q) =
      files.find? (fun f => f.1 == q) := by
  induction files with
  | nil => rfl
  | cons e files ih =>
    by_cases hp : e.1 = p
    · have h1 : (e.1 == p) = true := beq_iff_eq.mpr hp
      have h2 : (e.1 == q) = false := beq_false_of_ne (hp ▸ fun hq => h hq.symm)
      simp only [List.filter_cons, h1, Bool.not_true, List.find?_cons, h2, ih,
        if_neg (Bool.false_ne_true)]
    · have h1 : (e.1 == p) = false := beq_false_of_ne hp
      by_cases hq : e.1 = q
      · have h2 : (e.1 == q) = true := beq_iff_eq.mpr hq
        simp [List.filter_cons, h1, List.find?_cons, h2]
      · have h2 : (e.1 == q) = false := beq_false_of_ne hq
        simp [List.filter_cons, h1, List.find?_cons, h2, ih]

theorem FS.readFile_writeFile (fs : FS) (p : FPath) (c : String) (q : FPath) :
    (fs.writeFile p c).readFile q = if q = p then some c else fs.readFile q := by
  by_cases h : q = p
  · subst h
    simp [FS.writeFile, FS.readFile, List.find?_cons]
  · have h1 : (p == q) = false := beq_false_of_ne (fun hpq => h hpq.symm)
    simp only [FS.writeFile, FS.readFile, List.find?_cons, h1, if_neg h]
    rw [find_filter_ne _ _ _ h]

theorem FS.existsPath_mkdirAll_self (fs : FS) (p : FPath) :
    (fs.mkdirAll p).existsPath p = true := by
  simp [FS.mkdirAll, FS.existsPath, List.contains_cons]

/-- C9: `Repository::new` on an existing path creates nothing (the filesystem
is returned untouched) and roots the repository at the path; only when the
path does not exist does it create `<path>/.wts` via `create_dir_all`. -/
theorem new_creates_dirs_only_when_path_absent (fs : FS) (path : FPath) :
    (fs.existsPath path = true → Repository.new fs path = (fs, { root := path })) ∧
    (fs.existsPath path = false →
      Repository.new fs path = (fs.mkdirAll (path ++ [".wts"]), { root := path }) ∧
      ((Repository.new fs path).1).existsPath (path ++ [".wts"]) = true) := by
  constructor
  · intro h
    simp [Repository.new, h]
  · intro h
    refine ⟨by simp [Repository.new, h], ?_⟩
    simp [Repository.new, h, FS.existsPath_mkdirAll_self]

/-- Concrete run of `new_creates_dirs_only_when_path_absent`: an existing
path `r` is left untouched; a missing one gets `r/.wts`. -/
theorem new_creates_dirs_only_when_path_absent_witness :
    Repository.new (FS.mk [["r"]] []) ["r"] = (FS.mk [["r"]] [], { root := ["r"] }) ∧
    ((Repository.new (FS.mk [] []) ["r"]).1).existsPath (["r"] ++ [".wts"]) = true :=
  ⟨(new_creates_dirs_only_when_path_absent (FS.mk [["r"]] []) ["r"]).1 rfl,
   ((new_creates_dirs_only_when_path_absent (FS.mk [] []) ["r"]).2 rfl).2⟩

/-- C10: re-running `init` changes no file other than `HEAD` (in particular
every file under `objects`, `commits`, `refs/heads`, `refs/tags` keeps its
contents), and unconditionally overwrites `HEAD` with the literal text
`ref: ref/heads/main`, whatever it pointed to before. -/
theorem init_overwrites_only_head (repo : Repository) (fs : FS) (p : FPath)
    (hp : p ≠ repo.root ++ [".wts", "HEAD"]) :
    (Repository.init repo fs).readFile p = fs.readFile p ∧
    (Repository.init repo fs).readFile (repo.root ++ [".wts", "HEAD"]) =
      some "ref: ref/heads/main" := by
  have hp' : p ≠ (repo.root ++ [".wts"]) ++ ["HEAD"] := by
    simpa [List.append_assoc] using hp
  constructor
  · simp only [Repository.init, FS.readFile_mkdirAll, FS.readFile_writeFile, if_neg hp']
  · simp only [Repository.init, FS.readFile_mkdirAll, FS.readFile_writeFile]
    rw [if_pos (by simp [List.append_assoc])]

/-- Concrete run of `init_overwrites_only_head`: a stored object survives a
second `init`, while a `HEAD` pointing at branch `dev` is reset. -/
theorem init_overwrites_only_head_witness :
    (Repository.init { root := ["r"] }
        (FS.mk [] [(["r", ".wts", "objects", "aa"], "blob"),
                   (["r", ".wts", "HEAD"], "ref: ref/heads/dev")])).readFile
      ["r", ".wts", "objects", "aa"] =
      (FS.mk [] [(["r", ".wts", "objects", "aa"], "blob"),
                 (["r", ".wts", "HEAD"], "ref: ref/heads/dev")]).readFile
        ["r", ".wts", "objects", "aa"] ∧
    (Repository.init { root := ["r"] }
        (FS.mk [] [(["r", ".wts", "objects", "aa"], "blob"),
                   (["r", ".wts", "HEAD"], "ref: ref/heads/dev")])).readFile
      (["r"] ++ [".wts", "HEAD"]) = some "ref: ref/heads/main" :=
  init_overwrites_only_head { root := ["r"] } _ _ (by decide)

/-- C3 (divergence witness): `Repository::open` only tests that the current
working directory itself exists, so on an existing directory `repo` that
contains no `.wts` control directory it succeeds instead of failing with
`EmptyRepository`; `init` followed by `open` also succeeds. -/
theorem openRepo_succeeds_without_control_dir :
    Repository.openRepo (FS.mk [["repo"]] []) ["repo"] = Except.ok { root := ["repo"] } ∧
    (FS.mk [["repo"]] []).existsPath (["repo"] ++ [".wts"]) = false ∧
    Repository.openRepo
        (Repository.init { root := ["repo"] } (FS.mk [["repo"]] [])) ["repo"] =
      Except.ok { root := ["repo"] } := by
  refine ⟨rfl, by decide, rfl⟩

/-- C4 (divergence witness): a commit lookup for a digest with no stored
record fails with the raw `WTSError::Io` conversion of the `fs::read_to_string`
error — the `ObjectNotFound` variant is never produced. -/
theorem get_commit_missing_gives_io_error :
    Repository.get_commit (fun _ => Except.error "unreachable") (FS.mk [] [])
        { root := [] } "ab" =
      Except.error (WTSError.Io "No such file or directory") := rfl

/-- A commit-record path and an object-blob path never coincide. -/
theorem commit_path_ne_object_path (root : FPath) (a b : String) :
    root ++ [".wts", "commits", a] ≠ root ++ [".wts", "objects", b] := by
  intro h
  have h' := List.append_cancel_left h
  simp at h'

/-- C5: calling `create_commit` twice with the same tensor collection,
message, metadata and parent (clock readings `now1`, `now2`; both commit-file
writes succeeding, blob-save outcomes arbitrary) returns the same hex digest
both times, and afterwards the stored commit record is the second call's. -/
theorem create_commit_idempotent_digest (sha : List Nat → List Nat)
    (display : TensorVal → List Nat) (encode : Commit → String)
    (serializeTensors : TensorMap → String) (repo : Repository) (fs : FS)
    (tensors : TensorMap) (message : String) (metadata : Json)
    (parent : Option (List Nat)) (now1 now2 : String) (save1 save2 : Bool) :
    (Repository.create_commit sha display encode serializeTensors repo fs tensors
        message metadata parent now1 true save1).2 =
      Except.ok (hexEncode (Repository.hash_tensors sha display tensors)) ∧
    (Repository.create_commit sha display encode serializeTensors repo
        (Repository.create_commit sha display encode serializeTensors repo fs tensors
          message metadata parent now1 true save1).1 tensors
        message metadata parent now2 true save2).2 =
      Except.ok (hexEncode (Repository.hash_tensors sha display tensors)) ∧
    ((Repository.create_commit sha display encode serializeTensors repo
        (Repository.create_commit sha display encode serializeTensors repo fs tensors
          message metadata parent now1 true save1).1 tensors
        message metadata parent now2 true save2).1).readFile
      (repo.root ++ [".wts", "commits",
        hexEncode (Repository.hash_tensors sha display tensors) ++ ".json"]) =
      some (encode
        { hash := Repository.hash_tensors sha display tensors, parent_hash := parent,
          timestamp := now2, message := message, metadata := metadata }) := by
  refine ⟨rfl, rfl, ?_⟩
  cases save1 <;> cases save2 <;>
    simp [Repository.create_commit, Repository.store_tensors, FS.readFile_writeFile,
      commit_path_ne_object_path]

/-- C6: `store_tensors` returns `Ok(())` whatever the outcome of the external
blob save, so `create_commit` returns the hex digest even when that write
fails; its other failure (the commit-record `fs::write`) still propagates as
an error. -/
theorem create_commit_ignores_blob_write_failure (sha : List Nat → List Nat)
    (display : TensorVal → List Nat) (encode : Commit → String)
    (serializeTensors : TensorMap → String) (repo : Repository) (fs : FS)
    (tensors : TensorMap) (message : String) (metadata : Json)
    (parent : Option (List Nat)) (now : String) (saveOk : Bool) :
    (Repository.store_tensors serializeTensors saveOk repo fs tensors
        (hexEncode (Repository.hash_tensors sha display tensors))).2 =
      Except.ok () ∧
    (Repository.create_commit sha display encode serializeTensors repo fs tensors
        message metadata parent now true saveOk).2 =
      Except.ok (hexEncode (Repository.hash_tensors sha display tensors)) ∧
    (Repository.create_commit sha display encode serializeTensors repo fs tensors
        message metadata parent now false saveOk).2 =
      Except.error (WTSError.Io "failed to write commit file") :=
  ⟨rfl, rfl, rfl⟩

/-- Once the iterator state is cleared, every further `next` yields nothing. -/
theorem run_after_cleared (decode : String → Except String Commit) (fs : FS)
    (repo : Repository) :
    ∀ n : Nat, CommitIterator.run decode fs repo n { current_hash := none } =
      List.replicate n none := by
  intro n
  induction n with
  | zero => rfl
  | succ n ih =>
    simp [CommitIterator.run, CommitIterator.next, ih, List.replicate]

/-- C7: when looking up the current commit fails, the iterator yields that
failure as its next element, and every one of the `n` subsequent `next` calls
yields nothing — it neither stops silently before the failure nor retries. -/
theorem iterator_yields_failure_then_terminates
    (decode : String → Except String Commit) (fs : FS) (repo : Repository)
    (h : List Nat) (e : WTSError) (n : Nat)
    (hfail : Repository.get_commit decode fs repo (hexEncode h) = Except.error e) :
    CommitIterator.run decode fs repo (n + 1) { current_hash := some h } =
      some (Except.error e) :: List.replicate n none := by
  simp only [CommitIterator.run, CommitIterator.next, hfail]
  exact congrArg _ (run_after_cleared decode fs repo n)

/-- Concrete run of `iterator_yields_failure_then_terminates`: an iterator
over an empty store yields the not-found failure, then nothing, twice. -/
theorem iterator_yields_failure_then_terminates_witness :
    CommitIterator.run (fun _ => Except.error "bad") (FS.mk [] []) { root := [] }
        (2 + 1) { current_hash := some [0] } =
      some (Except.error (WTSError.Io "No such file or directory")) ::
        List.replicate 2 none :=
  iterator_yields_failure_then_terminates _ _ _ [0]
    (WTSError.Io "No such file or directory") 2 rfl

/-- C8: an iterator started at the digest of a stored commit whose
`parent_hash` is absent yields exactly that commit and then nothing on every
one of the `n` subsequent `next` calls. -/
theorem iterator_parentless_commit_yields_once
    (decode : String → Except String Commit) (fs : FS) (repo : Repository)
    (h : List Nat) (s : String) (c : Commit) (n : Nat)
    (hread : fs.readFile (repo.root ++ [".wts", "commits", hexEncode h ++ ".json"]) =
      some s)
    (hdec : decode s = Except.ok c)
    (hpar : c.parent_hash = none) :
    CommitIterator.run decode fs repo (n + 1) { current_hash := some h } =
      some (Except.ok c) :: List.replicate n none := by
  have hget : Repository.get_commit decode fs repo (hexEncode h) = Except.ok c := by
    simp only [Repository.get_commit, hread, hdec]
  simp only [CommitIterator.run, CommitIterator.next, hget, hpar]
  exact congrArg _ (run_after_cleared decode fs repo n)

/-- Concrete run of `iterator_parentless_commit_yields_once`: a root commit
stored under its digest is yielded once, then the iterator is exhausted. -/
theorem iterator_parentless_commit_yields_once_witness :
    CommitIterator.run
        (fun _ => Except.ok (Commit.mk [] none "0.000000" "first" Json.null))
        (FS.mk [] [([".wts", "commits", ".json"], "record")]) { root := [] }
        (1 + 1) { current_hash := some [] } =
      some (Except.ok (Commit.mk [] none "0.000000" "first" Json.null)) ::
        List.replicate 1 none :=
  iterator_parentless_commit_yields_once _ _ _ [] "record"
    (Commit.mk [] none "0.000000" "first" Json.null) 1 rfl rfl rfl
